import Mathlib

/-!
Verification of the steganographic AEAD codec of this repository.

The write path lives in `src/encoder.py` (byte-to-bit planner
`bytes_to_lsb_bits`, LSB embedder `embed_data_in_png`, payload framer
`encrypt_and_embed`); the read path is the JavaScript embedded in `app.py`
(`lsbBitsToBytes`, `extractDataFromPng`, `extractAndDecryptPng`); the
mapping registry parser is `read_article_mapping` in `app.py`.
All byte values are modelled as `Nat` (Python/JS bytes are 0..255, stated
as hypotheses where needed).
-/

/-! ## Bit planner -/

/-- One byte rendered most-significant-bit first, from
`for i in range(7, -1, -1): bits.append((b >> i) & 1)` in
`bytes_to_lsb_bits` (`src/encoder.py`). -/
def byteBitsMSB (b : Nat) : List Nat :=
  [7, 6, 5, 4, 3, 2, 1, 0].map (fun i => (b >>> i) &&& 1)

/-- Writer-side bit planner `bytes_to_lsb_bits` (`src/encoder.py` lines
41-55): bytes in input order, each expanded MSB-first. -/
def bytes_to_lsb_bits (data : List Nat) : List Nat :=
  (data.map byteBitsMSB).flatten

/-- Inner loop of the reader-side `lsbBitsToBytes` (`app.py` lines
363-374): `byte = (byte << 1) | bits[i * 8 + j]` over `j = 0..7`.  The
source's `if (i + j >= bits.length) break` is modelled by skipping the
iteration; since the guard is monotone in `j`, skipping every later
iteration is the same as breaking. -/
def lsbByteAt (bits : List Nat) (i : Nat) : Nat :=
  (List.range 8).foldl
    (fun byte j =>
      if bits.length ≤ i + j then byte
      else (byte <<< 1) ||| bits.getD (i * 8 + j) 0) 0

/-- Reader-side bit planner `lsbBitsToBytes` (`app.py` lines 363-374):
`floor(bits.length / 8)` output bytes, byte `i` assembled from bits
`8i..8i+7` MSB-first. -/
def lsbBitsToBytes (bits : List Nat) : List Nat :=
  (List.range (bits.length / 8)).map (fun i => lsbByteAt bits i)

/-- MSB-first reassembly of a bit list into a value. -/
def msbFoldByte (bs : List Nat) : Nat :=
  bs.foldl (fun byte bit => (byte <<< 1) ||| bit) 0

theorem byteBitsMSB_length (b : Nat) : (byteBitsMSB b).length = 8 := rfl

theorem bytes_to_lsb_bits_nil : bytes_to_lsb_bits [] = [] := rfl

theorem bytes_to_lsb_bits_cons (b : Nat) (data : List Nat) :
    bytes_to_lsb_bits (b :: data) = byteBitsMSB b ++ bytes_to_lsb_bits data := by
  simp [bytes_to_lsb_bits]

theorem bytes_to_lsb_bits_length (data : List Nat) :
    (bytes_to_lsb_bits data).length = data.length * 8 := by
  induction data with
  | nil => rfl
  | cons b rest ih =>
    rw [bytes_to_lsb_bits_cons]
    simp [ih, byteBitsMSB_length]
    omega

theorem bytes_to_lsb_bits_drop (i : Nat) (data : List Nat) :
    (bytes_to_lsb_bits data).drop (i * 8) = bytes_to_lsb_bits (data.drop i) := by
  induction i generalizing data with
  | zero => simp
  | succ n ih =>
    cases data with
    | nil => simp [bytes_to_lsb_bits_nil]
    | cons b rest =>
      rw [bytes_to_lsb_bits_cons, show (n + 1) * 8 = 8 + n * 8 by ring,
        ← List.drop_drop, List.drop_left' (byteBitsMSB_length b), ih]
      simp

theorem getD_drop (l : List Nat) (n j : Nat) :
    (l.drop n).getD j 0 = l.getD (n + j) 0 := by
  simp [List.getD, List.getElem?_drop]

set_option maxRecDepth 8000 in
theorem msbFoldByte_byteBitsMSB : ∀ b < 256, msbFoldByte (byteBitsMSB b) = b := by
  decide

/-- When the bits at index `i` start a full chunk `byteBitsMSB b`, the dead
`break` guard in `lsbByteAt` never fires and the reader reassembles
exactly `b`. -/
theorem lsbByteAt_chunk (bits t : List Nat) (i b : Nat)
    (hdrop : bits.drop (i * 8) = byteBitsMSB b ++ t)
    (hb : b < 256) (h : (i + 1) * 8 ≤ bits.length) :
    lsbByteAt bits i = b := by
  have h0 : ¬ bits.length ≤ i + 0 := by omega
  have h1 : ¬ bits.length ≤ i + 1 := by omega
  have h2 : ¬ bits.length ≤ i + 2 := by omega
  have h3 : ¬ bits.length ≤ i + 3 := by omega
  have h4 : ¬ bits.length ≤ i + 4 := by omega
  have h5 : ¬ bits.length ≤ i + 5 := by omega
  have h6 : ¬ bits.length ≤ i + 6 := by omega
  have h7 : ¬ bits.length ≤ i + 7 := by omega
  have hget : ∀ j, j < 8 → bits.getD (i * 8 + j) 0 = (byteBitsMSB b).getD j 0 := by
    intro j hj
    rw [← getD_drop bits (i * 8) j, hdrop]
    have hjb : j < (byteBitsMSB b).length := by rw [byteBitsMSB_length]; exact hj
    simp [List.getD, List.getElem?_append, hjb]
  have hrange : List.range 8 = [0, 1, 2, 3, 4, 5, 6, 7] := rfl
  unfold lsbByteAt
  rw [hrange]
  simp only [List.foldl_cons, List.foldl_nil]
  rw [if_neg h0, if_neg h1, if_neg h2, if_neg h3, if_neg h4, if_neg h5,
    if_neg h6, if_neg h7, hget 0 (by norm_num), hget 1 (by norm_num),
    hget 2 (by norm_num), hget 3 (by norm_num), hget 4 (by norm_num),
    hget 5 (by norm_num), hget 6 (by norm_num), hget 7 (by norm_num)]
  exact msbFoldByte_byteBitsMSB b hb

/-- C1. Cross-implementation bit-planner agreement: for every byte
sequence, the writer's `bytes_to_lsb_bits` (MSB-first within each byte,
bytes in input order) is inverted by the reader's `lsbBitsToBytes`, so
`from_bits(to_bits(b)) = b` and `to_bits(from_bits(to_bits(b))) = to_bits(b)`. -/
theorem C1_bit_planner_roundtrip (data : List Nat) (hdata : ∀ b ∈ data, b < 256) :
    lsbBitsToBytes (bytes_to_lsb_bits data) = data ∧
    bytes_to_lsb_bits (lsbBitsToBytes (bytes_to_lsb_bits data)) =
      bytes_to_lsb_bits data := by
  have hmain : lsbBitsToBytes (bytes_to_lsb_bits data) = data := by
    apply List.ext_getElem
    · simp [lsbBitsToBytes, bytes_to_lsb_bits_length]
    · intro i h1 h2
      simp only [lsbBitsToBytes, List.getElem_map, List.getElem_range]
      apply lsbByteAt_chunk _ (bytes_to_lsb_bits (data.drop (i + 1)))
      · rw [bytes_to_lsb_bits_drop, List.drop_eq_getElem_cons h2,
          bytes_to_lsb_bits_cons]
      · exact hdata _ (List.getElem_mem h2)
      · rw [bytes_to_lsb_bits_length]
        omega
  exact ⟨hmain, by rw [hmain]⟩

/-- Witness for C1 at the concrete byte sequence `[72, 105, 255, 0]`. -/
theorem C1_bit_planner_roundtrip_witness :
    (∀ b ∈ [72, 105, 255, 0], b < 256) ∧
    (lsbBitsToBytes (bytes_to_lsb_bits [72, 105, 255, 0]) = [72, 105, 255, 0] ∧
     bytes_to_lsb_bits (lsbBitsToBytes (bytes_to_lsb_bits [72, 105, 255, 0])) =
       bytes_to_lsb_bits [72, 105, 255, 0]) :=
  ⟨by decide, C1_bit_planner_roundtrip [72, 105, 255, 0] (by decide)⟩

/-! ## Carrier image model and LSB embedder / extractor -/

/-- One RGB pixel (channels are 8-bit bytes, stated as hypotheses). -/
structure Pixel where
  r : Nat
  g : Nat
  b : Nat
deriving DecidableEq, Repr

/-- A carrier image: rows top-to-bottom, each row pixels left-to-right. -/
abbrev Image := List (List Pixel)

/-- `(c & 0xFE) | bit` from `embed_data_in_png` (`src/encoder.py`). -/
def setLSB (c bit : Nat) : Nat :=
  (c &&& 0xFE) ||| bit

/-- One pixel of the embed loop (`src/encoder.py` lines 96-122): consume up
to three bits into the R, G, B channel LSBs; on exhaustion mid-pixel the
remaining channels keep their original value. -/
def embedPixel (p : Pixel) (bits : List Nat) : Pixel × List Nat :=
  match bits with
  | [] => (p, [])
  | b1 :: rest1 =>
    match rest1 with
    | [] => (⟨setLSB p.r b1, p.g, p.b⟩, [])
    | b2 :: rest2 =>
      match rest2 with
      | [] => (⟨setLSB p.r b1, setLSB p.g b2, p.b⟩, [])
      | b3 :: rest3 => (⟨setLSB p.r b1, setLSB p.g b2, setLSB p.b b3⟩, rest3)

/-- One row of the embed loop: pixels left-to-right. -/
def embedRow (row : List Pixel) (bits : List Nat) : List Pixel × List Nat :=
  match row with
  | [] => ([], bits)
  | p :: ps =>
    let pr := embedPixel p bits
    let rest := embedRow ps pr.2
    (pr.1 :: rest.1, rest.2)

/-- The full embed loop: rows top-to-bottom. -/
def embedImage (img : Image) (bits : List Nat) : Image × List Nat :=
  match img with
  | [] => ([], bits)
  | row :: rows =>
    let rr := embedRow row bits
    let rest := embedImage rows rr.2
    (rr.1 :: rest.1, rest.2)

def imgHeight (img : Image) : Nat := img.length

def imgWidth (img : Image) : Nat :=
  match img with
  | [] => 0
  | row :: _ => row.length

/-- `embed_data_in_png` (`src/encoder.py` lines 58-127): raises
`ValueError` (modelled as `none`) when the bit sequence exceeds
`width * height * 3`, before the write loop runs; otherwise returns the
mutated image. -/
def embed_data_in_png (img : Image) (data : List Nat) : Option Image :=
  let bits := bytes_to_lsb_bits data
  if bits.length > imgWidth img * imgHeight img * 3 then none
  else some (embedImage img bits).1

/-- LSBs of one pixel in channel order R, G, B (`r & 1` etc. in
`extractDataFromPng`, `app.py`). -/
def pixelLSBs (p : Pixel) : List Nat :=
  [p.r &&& 1, p.g &&& 1, p.b &&& 1]

/-- All channel LSBs of one row in traversal order. -/
def rowLSBs (row : List Pixel) : List Nat :=
  (row.map pixelLSBs).flatten

/-- All channel LSBs of the image in traversal order (rows top-to-bottom,
columns left-to-right, channels R, G, B). -/
def imageLSBs (img : Image) : List Nat :=
  (img.map rowLSBs).flatten

/-- One pixel of the extract loop (`app.py` lines 404-417): push `r & 1`,
`g & 1`, `b & 1`, breaking as soon as `bitIdx` reaches `needBits`. -/
def extractPixelBits (p : Pixel) (need : Nat) : List Nat :=
  match need with
  | 0 => []
  | 1 => [p.r &&& 1]
  | 2 => [p.r &&& 1, p.g &&& 1]
  | _ + 3 => [p.r &&& 1, p.g &&& 1, p.b &&& 1]

/-- One row of the extract loop: columns left-to-right while bits are
still needed. -/
def extractRowBits (row : List Pixel) (need : Nat) : List Nat :=
  match row with
  | [] => []
  | p :: ps =>
    if need = 0 then []
    else
      let taken := extractPixelBits p need
      taken ++ extractRowBits ps (need - taken.length)

/-- The full extract loop: rows top-to-bottom while bits are still
needed. -/
def extractImageBits (img : Image) (need : Nat) : List Nat :=
  match img with
  | [] => []
  | row :: rows =>
    if need = 0 then []
    else
      let taken := extractRowBits row need
      taken ++ extractImageBits rows (need - taken.length)

/-- `extractDataFromPng` (`app.py` lines 376-420): throws (modelled as
`none`) when `dataLen * 8` exceeds `width * height * 3`, before the read
loop runs; otherwise reads exactly `dataLen * 8` bits in traversal order
and reassembles bytes with `lsbBitsToBytes`. -/
def extractDataFromPng (img : Image) (dataLen : Nat) : Option (List Nat) :=
  let needBits := dataLen * 8
  if needBits > imgWidth img * imgHeight img * 3 then none
  else some (lsbBitsToBytes (extractImageBits img needBits))

/-! ## Helper lemmas about the embedder and extractor -/

def PixelValid (p : Pixel) : Prop :=
  p.r < 256 ∧ p.g < 256 ∧ p.b < 256

def ImageValid (img : Image) : Prop :=
  ∀ row ∈ img, ∀ p ∈ row, PixelValid p

instance (p : Pixel) : Decidable (PixelValid p) := by
  unfold PixelValid; infer_instance

instance (img : Image) : Decidable (ImageValid img) := by
  unfold ImageValid; infer_instance

set_option maxRecDepth 8000 in
theorem setLSB_and_one : ∀ c < 256, ∀ b < 2, setLSB c b &&& 1 = b := by
  decide

set_option maxRecDepth 8000 in
theorem setLSB_div_two : ∀ c < 256, ∀ b < 2, setLSB c b / 2 = c / 2 := by
  decide

theorem mem_bytes_to_lsb_bits_lt_two (data : List Nat) :
    ∀ x ∈ bytes_to_lsb_bits data, x < 2 := by
  induction data with
  | nil => intro x hx; simp [bytes_to_lsb_bits_nil] at hx
  | cons b rest ih =>
    intro x hx
    rw [bytes_to_lsb_bits_cons, List.mem_append] at hx
    rcases hx with hx | hx
    · simp [byteBitsMSB] at hx
      rcases hx with rfl | rfl | rfl | rfl | rfl | rfl | rfl | rfl <;> omega
    · exact ih x hx

theorem pixelLSBs_length (p : Pixel) : (pixelLSBs p).length = 3 := rfl

theorem rowLSBs_nil : rowLSBs [] = [] := rfl

theorem rowLSBs_cons (p : Pixel) (ps : List Pixel) :
    rowLSBs (p :: ps) = pixelLSBs p ++ rowLSBs ps := by
  simp [rowLSBs]

theorem rowLSBs_length (row : List Pixel) :
    (rowLSBs row).length = 3 * row.length := by
  induction row with
  | nil => rfl
  | cons p ps ih => rw [rowLSBs_cons]; simp [ih, pixelLSBs_length]; ring

theorem imageLSBs_nil : imageLSBs [] = [] := rfl

theorem imageLSBs_cons (row : List Pixel) (rows : Image) :
    imageLSBs (row :: rows) = rowLSBs row ++ imageLSBs rows := by
  simp [imageLSBs]

theorem imageLSBs_length_uniform (img : Image) (w : Nat)
    (hw : ∀ row ∈ img, row.length = w) :
    (imageLSBs img).length = 3 * w * img.length := by
  induction img with
  | nil => rfl
  | cons row rows ih =>
    rw [imageLSBs_cons]
    have hrow : row.length = w := hw row (by simp)
    have hrest := ih (fun r hr => hw r (by simp [hr]))
    simp [rowLSBs_length, hrow, hrest]
    ring

/-- The extractor's pixel step takes a prefix of the pixel's LSBs. -/
theorem extractPixelBits_eq_take (p : Pixel) (need : Nat) :
    extractPixelBits p need = (pixelLSBs p).take need := by
  match need with
  | 0 => rfl
  | 1 => rfl
  | 2 => rfl
  | n + 3 => simp [extractPixelBits, pixelLSBs]

/-- The extractor's row loop takes a prefix of the row's LSBs. -/
theorem extractRowBits_eq_take (row : List Pixel) (need : Nat) :
    extractRowBits row need = (rowLSBs row).take need := by
  induction row generalizing need with
  | nil => simp [extractRowBits, rowLSBs_nil]
  | cons p ps ih =>
    by_cases h0 : need = 0
    · simp [extractRowBits, h0]
    · simp only [extractRowBits, if_neg h0, rowLSBs_cons,
        extractPixelBits_eq_take, ih, List.length_take, pixelLSBs_length]
      rw [List.take_append_eq_append_take, pixelLSBs_length]
      congr 2
      omega

/-- The extract loop reads exactly the first `need` LSBs of the carrier in
traversal order. -/
theorem extractImageBits_eq_take (img : Image) (need : Nat) :
    extractImageBits img need = (imageLSBs img).take need := by
  induction img generalizing need with
  | nil => simp [extractImageBits, imageLSBs_nil]
  | cons row rows ih =>
    by_cases h0 : need = 0
    · simp [extractImageBits, h0]
    · simp only [extractImageBits, if_neg h0, imageLSBs_cons,
        extractRowBits_eq_take, ih, List.length_take]
      rw [List.take_append_eq_append_take]
      congr 2
      omega

theorem embedPixel_nil (p : Pixel) : embedPixel p [] = (p, []) := rfl

theorem embedPixel_snd (p : Pixel) (bits : List Nat) :
    (embedPixel p bits).2 = bits.drop 3 := by
  rcases bits with _ | ⟨b1, _ | ⟨b2, _ | ⟨b3, rest⟩⟩⟩ <;> rfl

theorem embedRow_fst_length (row : List Pixel) (bits : List Nat) :
    (embedRow row bits).1.length = row.length := by
  induction row generalizing bits with
  | nil => rfl
  | cons p ps ih => simp [embedRow, ih]

theorem embedRow_snd (row : List Pixel) (bits : List Nat) :
    (embedRow row bits).2 = bits.drop (3 * row.length) := by
  induction row generalizing bits with
  | nil => simp [embedRow]
  | cons p ps ih =>
    simp only [embedRow, ih, embedPixel_snd, List.drop_drop, List.length_cons]
    congr 1
    ring

theorem embedImage_fst_shape (img : Image) (bits : List Nat) :
    (embedImage img bits).1.map List.length = img.map List.length := by
  induction img generalizing bits with
  | nil => rfl
  | cons row rows ih => simp [embedImage, embedRow_fst_length, ih]

/-- Pixel-level write effect on LSBs: the written channels carry the
consumed bits, the untouched channels keep their LSBs. -/
theorem pixelLSBs_embedPixel (p : Pixel) (bits : List Nat)
    (hp : PixelValid p) (hb : ∀ x ∈ bits, x < 2) :
    pixelLSBs (embedPixel p bits).1 =
      bits.take 3 ++ (pixelLSBs p).drop bits.length := by
  obtain ⟨hr, hg, hbl⟩ := hp
  rcases bits with _ | ⟨b1, _ | ⟨b2, _ | ⟨b3, rest⟩⟩⟩
  · rfl
  · have h1 : b1 < 2 := hb b1 (by simp)
    simp [embedPixel, pixelLSBs, setLSB_and_one p.r hr b1 h1]
  · have h1 : b1 < 2 := hb b1 (by simp)
    have h2 : b2 < 2 := hb b2 (by simp)
    simp [embedPixel, pixelLSBs, setLSB_and_one p.r hr b1 h1,
      setLSB_and_one p.g hg b2 h2]
  · have h1 : b1 < 2 := hb b1 (by simp)
    have h2 : b2 < 2 := hb b2 (by simp)
    have h3 : b3 < 2 := hb b3 (by simp)
    simp [embedPixel, pixelLSBs, setLSB_and_one p.r hr b1 h1,
      setLSB_and_one p.g hg b2 h2, setLSB_and_one p.b hbl b3 h3]

/-- Row-level write effect on LSBs. -/
theorem rowLSBs_embedRow (row : List Pixel) (bits : List Nat)
    (hrow : ∀ p ∈ row, PixelValid p) (hb : ∀ x ∈ bits, x < 2) :
    rowLSBs (embedRow row bits).1 =
      bits.take (rowLSBs row).length ++ (rowLSBs row).drop bits.length := by
  induction row generalizing bits with
  | nil => simp [embedRow, rowLSBs_nil]
  | cons p ps ih =>
    have hp : PixelValid p := hrow p (by simp)
    have hps : ∀ q ∈ ps, PixelValid q := fun q hq => hrow q (by simp [hq])
    have hb' : ∀ x ∈ bits.drop 3, x < 2 := fun x hx =>
      hb x (List.mem_of_mem_drop hx)
    simp only [embedRow, rowLSBs_cons, embedPixel_snd]
    rw [pixelLSBs_embedPixel p bits hp hb, ih (bits.drop 3) hps hb',
      List.length_append, pixelLSBs_length]
    rw [List.drop_append_eq_append_drop, pixelLSBs_length]
    by_cases hlen : bits.length ≤ 3
    · have hd3 : bits.drop 3 = [] := List.drop_of_length_le (by omega)
      have ht3 : bits.take 3 = bits := List.take_of_length_le (by omega)
      have htB : bits.take (3 + (rowLSBs ps).length) = bits :=
        List.take_of_length_le (by omega)
      rw [show bits.length - 3 = 0 by omega]
      simp [hd3, ht3, htB, List.append_assoc]
    · have hdp : (pixelLSBs p).drop bits.length = [] :=
        List.drop_of_length_le (by rw [pixelLSBs_length]; omega)
      simp only [hdp, List.length_drop, List.nil_append, List.take_add,
        List.append_assoc]

/-- Image-level write effect on LSBs: the embedded image's LSB stream is
the bit sequence followed by the carrier's remaining LSBs. -/
theorem imageLSBs_embedImage (img : Image) (bits : List Nat)
    (himg : ImageValid img) (hb : ∀ x ∈ bits, x < 2) :
    imageLSBs (embedImage img bits).1 =
      bits.take (imageLSBs img).length ++ (imageLSBs img).drop bits.length := by
  induction img generalizing bits with
  | nil => simp [embedImage, imageLSBs_nil]
  | cons row rows ih =>
    have hrow : ∀ p ∈ row, PixelValid p := himg row (by simp)
    have hrows : ImageValid rows := fun r hr => himg r (by simp [hr])
    have hb' : ∀ x ∈ bits.drop (3 * row.length), x < 2 := fun x hx =>
      hb x (List.mem_of_mem_drop hx)
    simp only [embedImage, imageLSBs_cons, embedRow_snd]
    rw [rowLSBs_embedRow row bits hrow hb,
      ih (bits.drop (3 * row.length)) hrows hb',
      List.length_append, rowLSBs_length]
    rw [List.drop_append_eq_append_drop, rowLSBs_length]
    by_cases hlen : bits.length ≤ 3 * row.length
    · have hd : bits.drop (3 * row.length) = [] :=
        List.drop_of_length_le (by omega)
      have ht : bits.take (3 * row.length) = bits :=
        List.take_of_length_le (by omega)
      have htB : bits.take (3 * row.length + (imageLSBs rows).length) = bits :=
        List.take_of_length_le (by omega)
      rw [show bits.length - 3 * row.length = 0 by omega]
      simp [hd, ht, htB, List.append_assoc]
    · have hdp : (rowLSBs row).drop bits.length = [] :=
        List.drop_of_length_le (by rw [rowLSBs_length]; omega)
      simp only [hdp, List.length_drop, List.nil_append, List.take_add,
        List.append_assoc]

/-- C2. Embed/extract traversal round-trip: both sides address channels in
the identical fixed order (rows top-to-bottom, columns left-to-right,
channels R, G, B), so for every carrier of width `w` and height `h` and
every bit sequence `s` with `s.length ≤ w * h * 3`, extracting `s.length`
bits from the carrier produced by embedding `s` returns exactly `s`. -/
theorem C2_traversal_roundtrip (img : Image) (w h : Nat) (s : List Nat)
    (hw : ∀ row ∈ img, row.length = w) (hh : img.length = h)
    (hvalid : ImageValid img) (hbits : ∀ x ∈ s, x < 2)
    (hcap : s.length ≤ w * h * 3) :
    extractImageBits (embedImage img s).1 s.length = s := by
  have hT : (imageLSBs img).length = 3 * w * img.length :=
    imageLSBs_length_uniform img w hw
  have hsT : s.length ≤ (imageLSBs img).length := by
    rw [hT, hh, show 3 * w * h = w * h * 3 from by ring]
    exact hcap
  rw [extractImageBits_eq_take, imageLSBs_embedImage img s hvalid hbits,
    List.take_of_length_le hsT, List.take_left]

/-- Witness for C2: a 2-by-1 carrier and the 5-bit sequence
`[1, 0, 1, 1, 0]`. -/
theorem C2_traversal_roundtrip_witness :
    ((∀ row ∈ [[Pixel.mk 10 20 30, Pixel.mk 40 50 60]], row.length = 2) ∧
     ([[Pixel.mk 10 20 30, Pixel.mk 40 50 60]] : Image).length = 1 ∧
     ImageValid [[Pixel.mk 10 20 30, Pixel.mk 40 50 60]] ∧
     (∀ x ∈ [1, 0, 1, 1, 0], x < 2) ∧
     ([1, 0, 1, 1, 0] : List Nat).length ≤ 2 * 1 * 3) ∧
    extractImageBits
      (embedImage [[Pixel.mk 10 20 30, Pixel.mk 40 50 60]] [1, 0, 1, 1, 0]).1
      ([1, 0, 1, 1, 0] : List Nat).length = [1, 0, 1, 1, 0] :=
  ⟨⟨by decide, by decide, by decide, by decide, by decide⟩,
   C2_traversal_roundtrip [[Pixel.mk 10 20 30, Pixel.mk 40 50 60]] 2 1
     [1, 0, 1, 1, 0] (by decide) (by decide) (by decide) (by decide) (by decide)⟩

/-- C5. Capacity gate: `embed_data_in_png` fails exactly when the bit
sequence length exceeds `width * height * 3` (checked before the write
loop, so the input carrier is untouched on failure), and
`extractDataFromPng` fails exactly when `dataLen * 8` exceeds
`width * height * 3` (checked before the read loop); both sides compute
capacity as `width * height * 3`. -/
theorem C5_capacity_gate (img : Image) (data : List Nat) (dataLen : Nat) :
    (embed_data_in_png img data = none ↔
      imgWidth img * imgHeight img * 3 < (bytes_to_lsb_bits data).length) ∧
    (extractDataFromPng img dataLen = none ↔
      imgWidth img * imgHeight img * 3 < dataLen * 8) := by
  constructor
  · unfold embed_data_in_png
    by_cases h : (bytes_to_lsb_bits data).length > imgWidth img * imgHeight img * 3
    · simp [h]
    · simp [h]
  · unfold extractDataFromPng
    by_cases h : dataLen * 8 > imgWidth img * imgHeight img * 3
    · simp [h]
    · simp [h]

/-- C6. Non-payload bits are ignored: extraction reads exactly
`dataLen * 8` bits in traversal order and no more, so two carriers of
equal dimensions that agree on that LSB prefix extract to identical byte
sequences, whatever the later channel LSBs hold. -/
theorem C6_nonpayload_ignored (a b : Image) (dataLen : Nat)
    (hdW : imgWidth a = imgWidth b) (hdH : imgHeight a = imgHeight b)
    (hagree : (imageLSBs a).take (dataLen * 8) = (imageLSBs b).take (dataLen * 8)) :
    extractDataFromPng a dataLen = extractDataFromPng b dataLen := by
  unfold extractDataFromPng
  rw [hdW, hdH]
  by_cases h : dataLen * 8 > imgWidth b * imgHeight b * 3
  · simp [h]
  · simp only [h, if_neg]
    rw [extractImageBits_eq_take, extractImageBits_eq_take, hagree]

/-- Witness for C6: two 3-by-1 carriers agreeing on the first 8 LSBs but
differing in the ninth. -/
theorem C6_nonpayload_ignored_witness :
    (imgWidth [[Pixel.mk 0 0 0, Pixel.mk 0 0 0, Pixel.mk 0 0 0]] =
       imgWidth [[Pixel.mk 0 0 0, Pixel.mk 0 0 0, Pixel.mk 0 0 1]] ∧
     imgHeight [[Pixel.mk 0 0 0, Pixel.mk 0 0 0, Pixel.mk 0 0 0]] =
       imgHeight [[Pixel.mk 0 0 0, Pixel.mk 0 0 0, Pixel.mk 0 0 1]] ∧
     (imageLSBs [[Pixel.mk 0 0 0, Pixel.mk 0 0 0, Pixel.mk 0 0 0]]).take (1 * 8) =
       (imageLSBs [[Pixel.mk 0 0 0, Pixel.mk 0 0 0, Pixel.mk 0 0 1]]).take (1 * 8)) ∧
    extractDataFromPng [[Pixel.mk 0 0 0, Pixel.mk 0 0 0, Pixel.mk 0 0 0]] 1 =
      extractDataFromPng [[Pixel.mk 0 0 0, Pixel.mk 0 0 0, Pixel.mk 0 0 1]] 1 :=
  ⟨⟨by decide, by decide, by decide⟩,
   C6_nonpayload_ignored [[Pixel.mk 0 0 0, Pixel.mk 0 0 0, Pixel.mk 0 0 0]]
     [[Pixel.mk 0 0 0, Pixel.mk 0 0 0, Pixel.mk 0 0 1]] 1
     (by decide) (by decide) (by decide)⟩

/-! ## Frame invariant of embedding -/

/-- The raw channel bytes of one pixel in order R, G, B. -/
def pixelChannels (p : Pixel) : List Nat :=
  [p.r, p.g, p.b]

/-- The raw channel bytes of one row in traversal order. -/
def rowChannels (row : List Pixel) : List Nat :=
  (row.map pixelChannels).flatten

/-- The raw channel bytes of the image in traversal order. -/
def imageChannels (img : Image) : List Nat :=
  (img.map rowChannels).flatten

theorem pixelChannels_length (p : Pixel) : (pixelChannels p).length = 3 := rfl

theorem rowChannels_cons (p : Pixel) (ps : List Pixel) :
    rowChannels (p :: ps) = pixelChannels p ++ rowChannels ps := by
  simp [rowChannels]

theorem rowChannels_length (row : List Pixel) :
    (rowChannels row).length = 3 * row.length := by
  induction row with
  | nil => rfl
  | cons p ps ih =>
    rw [rowChannels_cons]
    simp [ih, pixelChannels_length]
    ring

theorem imageChannels_cons (row : List Pixel) (rows : Image) :
    imageChannels (row :: rows) = rowChannels row ++ imageChannels rows := by
  simp [imageChannels]

/-- Pixel-level: embedding preserves every channel's upper seven bits. -/
theorem pixelChannels_embedPixel_div (p : Pixel) (bits : List Nat)
    (hp : PixelValid p) (hb : ∀ x ∈ bits, x < 2) :
    (pixelChannels (embedPixel p bits).1).map (fun c => c / 2) =
      (pixelChannels p).map (fun c => c / 2) := by
  obtain ⟨hr, hg, hbl⟩ := hp
  rcases bits with _ | ⟨b1, _ | ⟨b2, _ | ⟨b3, rest⟩⟩⟩
  · rfl
  · have h1 : b1 < 2 := hb b1 (by simp)
    simp [embedPixel, pixelChannels, setLSB_div_two p.r hr b1 h1]
  · have h1 : b1 < 2 := hb b1 (by simp)
    have h2 : b2 < 2 := hb b2 (by simp)
    simp [embedPixel, pixelChannels, setLSB_div_two p.r hr b1 h1,
      setLSB_div_two p.g hg b2 h2]
  · have h1 : b1 < 2 := hb b1 (by simp)
    have h2 : b2 < 2 := hb b2 (by simp)
    have h3 : b3 < 2 := hb b3 (by simp)
    simp [embedPixel, pixelChannels, setLSB_div_two p.r hr b1 h1,
      setLSB_div_two p.g hg b2 h2, setLSB_div_two p.b hbl b3 h3]

/-- Pixel-level: channels past the consumed bits are byte-identical. -/
theorem pixelChannels_embedPixel_drop (p : Pixel) (bits : List Nat) :
    (pixelChannels (embedPixel p bits).1).drop bits.length =
      (pixelChannels p).drop bits.length := by
  rcases bits with _ | ⟨b1, _ | ⟨b2, _ | ⟨b3, rest⟩⟩⟩
  · rfl
  · rfl
  · rfl
  · have hA : (pixelChannels (embedPixel p (b1 :: b2 :: b3 :: rest)).1).length = 3 :=
      pixelChannels_length _
    rw [List.drop_of_length_le (by rw [hA]; simp),
      List.drop_of_length_le (by rw [pixelChannels_length]; simp)]

/-- Row-level: embedding preserves every channel's upper seven bits. -/
theorem rowChannels_embedRow_div (row : List Pixel) (bits : List Nat)
    (hrow : ∀ p ∈ row, PixelValid p) (hb : ∀ x ∈ bits, x < 2) :
    (rowChannels (embedRow row bits).1).map (fun c => c / 2) =
      (rowChannels row).map (fun c => c / 2) := by
  induction row generalizing bits with
  | nil => rfl
  | cons p ps ih =>
    have hp : PixelValid p := hrow p (by simp)
    have hps : ∀ q ∈ ps, PixelValid q := fun q hq => hrow q (by simp [hq])
    have hb' : ∀ x ∈ bits.drop 3, x < 2 := fun x hx =>
      hb x (List.mem_of_mem_drop hx)
    simp only [embedRow, rowChannels_cons, embedPixel_snd, List.map_append]
    rw [pixelChannels_embedPixel_div p bits hp hb, ih (bits.drop 3) hps hb']

/-- Row-level: channels past the consumed bits are byte-identical. -/
theorem rowChannels_embedRow_drop (row : List Pixel) (bits : List Nat) :
    (rowChannels (embedRow row bits).1).drop bits.length =
      (rowChannels row).drop bits.length := by
  induction row generalizing bits with
  | nil => rfl
  | cons p ps ih =>
    simp only [embedRow, rowChannels_cons, embedPixel_snd]
    rw [List.drop_append_eq_append_drop, List.drop_append_eq_append_drop,
      pixelChannels_length, pixelChannels_length _]
    rw [pixelChannels_embedPixel_drop p bits]
    have hx := ih (bits.drop 3)
    rw [List.length_drop] at hx
    rw [hx]

/-- Image-level: embedding preserves every channel's upper seven bits. -/
theorem imageChannels_embedImage_div (img : Image) (bits : List Nat)
    (himg : ImageValid img) (hb : ∀ x ∈ bits, x < 2) :
    (imageChannels (embedImage img bits).1).map (fun c => c / 2) =
      (imageChannels img).map (fun c => c / 2) := by
  induction img generalizing bits with
  | nil => rfl
  | cons row rows ih =>
    have hrow : ∀ p ∈ row, PixelValid p := himg row (by simp)
    have hrows : ImageValid rows := fun r hr => himg r (by simp [hr])
    have hb' : ∀ x ∈ bits.drop (3 * row.length), x < 2 := fun x hx =>
      hb x (List.mem_of_mem_drop hx)
    simp only [embedImage, imageChannels_cons, embedRow_snd, List.map_append]
    rw [rowChannels_embedRow_div row bits hrow hb,
      ih (bits.drop (3 * row.length)) hrows hb']

/-- Image-level: channels past the consumed bits are byte-identical. -/
theorem imageChannels_embedImage_drop (img : Image) (bits : List Nat) :
    (imageChannels (embedImage img bits).1).drop bits.length =
      (imageChannels img).drop bits.length := by
  induction img generalizing bits with
  | nil => rfl
  | cons row rows ih =>
    simp only [embedImage, imageChannels_cons, embedRow_snd]
    rw [List.drop_append_eq_append_drop, List.drop_append_eq_append_drop,
      rowChannels_length, rowChannels_length, embedRow_fst_length]
    rw [rowChannels_embedRow_drop row bits]
    have hx := ih (bits.drop (3 * row.length))
    rw [List.length_drop] at hx
    rw [hx]

/-- C4. Frame invariant of embedding: within capacity,
`embed_data_in_png` changes only the least-significant bit of the
channels it writes — the image shape is preserved, every channel's upper
seven bits are preserved, and every channel after the bit sequence is
exhausted is byte-identical to the source image. -/
theorem C4_frame_invariant (img : Image) (data : List Nat) (img2 : Image)
    (hvalid : ImageValid img)
    (hembed : embed_data_in_png img data = some img2) :
    img2.map List.length = img.map List.length ∧
    (imageChannels img2).map (fun c => c / 2) =
      (imageChannels img).map (fun c => c / 2) ∧
    (imageChannels img2).drop (bytes_to_lsb_bits data).length =
      (imageChannels img).drop (bytes_to_lsb_bits data).length := by
  have hb := mem_bytes_to_lsb_bits_lt_two data
  unfold embed_data_in_png at hembed
  by_cases h :
      (bytes_to_lsb_bits data).length > imgWidth img * imgHeight img * 3
  · simp [h] at hembed
  · simp only [h, if_neg, Option.some.injEq, if_false] at hembed
    rw [← hembed]
    exact ⟨embedImage_fst_shape img (bytes_to_lsb_bits data),
      imageChannels_embedImage_div img (bytes_to_lsb_bits data) hvalid hb,
      imageChannels_embedImage_drop img (bytes_to_lsb_bits data)⟩

/-- Witness for C4: embedding the byte `170` into a 3-by-1 carrier. -/
theorem C4_frame_invariant_witness :
    (ImageValid [[Pixel.mk 10 20 30, Pixel.mk 40 50 60, Pixel.mk 70 80 90]] ∧
     embed_data_in_png
       [[Pixel.mk 10 20 30, Pixel.mk 40 50 60, Pixel.mk 70 80 90]] [170] =
       some [[Pixel.mk 11 20 31, Pixel.mk 40 51 60, Pixel.mk 71 80 90]]) ∧
    ([[Pixel.mk 11 20 31, Pixel.mk 40 51 60, Pixel.mk 71 80 90]] : Image).map
        List.length =
      ([[Pixel.mk 10 20 30, Pixel.mk 40 50 60, Pixel.mk 70 80 90]] : Image).map
        List.length ∧
    (imageChannels [[Pixel.mk 11 20 31, Pixel.mk 40 51 60, Pixel.mk 71 80 90]]).map
        (fun c => c / 2) =
      (imageChannels [[Pixel.mk 10 20 30, Pixel.mk 40 50 60, Pixel.mk 70 80 90]]).map
        (fun c => c / 2) ∧
    (imageChannels [[Pixel.mk 11 20 31, Pixel.mk 40 51 60, Pixel.mk 71 80 90]]).drop
        (bytes_to_lsb_bits [170]).length =
      (imageChannels [[Pixel.mk 10 20 30, Pixel.mk 40 50 60, Pixel.mk 70 80 90]]).drop
        (bytes_to_lsb_bits [170]).length :=
  ⟨⟨by decide, by decide⟩,
   C4_frame_invariant [[Pixel.mk 10 20 30, Pixel.mk 40 50 60, Pixel.mk 70 80 90]]
     [170] [[Pixel.mk 11 20 31, Pixel.mk 40 51 60, Pixel.mk 71 80 90]]
     (by decide) (by decide)⟩

/-! ## Envelope framing -/

/-- `struct.pack(">I", n)` (`src/encoder.py` line 148): 4-byte unsigned
big-endian; raises (modelled as `none`) when the value does not fit in 32
bits. -/
def struct_pack_be32 (n : Nat) : Option (List Nat) :=
  if n < 2 ^ 32 then
    some [n / 2 ^ 24 % 256, n / 2 ^ 16 % 256, n / 2 ^ 8 % 256, n % 256]
  else none

/-- The payload built by `encrypt_and_embed` (`src/encoder.py` lines
146-150): `payload = nonce + struct.pack(">I", ct_len) + ct`. -/
def frame_payload (nonce ct : List Nat) : Option (List Nat) :=
  (struct_pack_be32 ct.length).map (fun lenBytes => nonce ++ lenBytes ++ ct)

/-- `DataView.getUint32(0, false)` over four bytes: big-endian 32-bit
value (`app.py` line 436). -/
def getUint32BE (b0 b1 b2 b3 : Nat) : Nat :=
  ((b0 * 256 + b1) * 256 + b2) * 256 + b3

/-- The envelope parsing of `extractAndDecryptPng` (`app.py` lines
432-439): `nonce = payload.slice(0, 12)`, `ctLen` read big-endian from
bytes 12..15 (the `DataView` constructor throws, modelled as `none`, when
fewer than 16 bytes exist), `ct = payload.slice(16, 16 + ctLen)` (JS
`slice` clamps to the payload end). -/
def unframe_payload (payload : List Nat) :
    Option (List Nat × Nat × List Nat) :=
  if payload.length < 16 then none
  else
    let nonce := payload.take 12
    let ctLen := getUint32BE (payload.getD 12 0) (payload.getD 13 0)
      (payload.getD 14 0) (payload.getD 15 0)
    let ct := (payload.drop 16).take ctLen
    some (nonce, ctLen, ct)

/-- C7. Envelope framing: the embedded payload is the exact concatenation
nonce (12 bytes) || ciphertext length as 4-byte unsigned big-endian ||
ciphertext-with-tag, with no padding, and its total length is
`16 + ct.length`. -/
theorem C7_envelope_framing (nonce ct : List Nat)
    (hn : nonce.length = 12) (hct : ct.length < 2 ^ 32) :
    ∃ payload, frame_payload nonce ct = some payload ∧
      payload.length = 16 + ct.length ∧
      payload.take 12 = nonce ∧
      getUint32BE (payload.getD 12 0) (payload.getD 13 0)
        (payload.getD 14 0) (payload.getD 15 0) = ct.length ∧
      payload.drop 16 = ct := by
  refine ⟨nonce ++ [ct.length / 2 ^ 24 % 256, ct.length / 2 ^ 16 % 256,
    ct.length / 2 ^ 8 % 256, ct.length % 256] ++ ct, ?_, ?_, ?_, ?_, ?_⟩
  · unfold frame_payload struct_pack_be32
    rw [if_pos hct]
    rfl
  · simp [hn]
    omega
  · rw [List.append_assoc, List.take_append_of_le_length (by omega),
      List.take_of_length_le (by omega)]
  · have hg : ∀ j, (nonce ++ ([ct.length / 2 ^ 24 % 256, ct.length / 2 ^ 16 % 256,
        ct.length / 2 ^ 8 % 256, ct.length % 256] ++ ct)).getD (12 + j) 0 =
        ([ct.length / 2 ^ 24 % 256, ct.length / 2 ^ 16 % 256,
          ct.length / 2 ^ 8 % 256, ct.length % 256] ++ ct).getD j 0 := by
      intro j
      rw [← hn, ← getD_drop, List.drop_left]
    have egen : ∀ x1 x2 x3 x4 : Nat,
        (([x1, x2, x3, x4] ++ ct).getD 0 0 = x1) ∧
        (([x1, x2, x3, x4] ++ ct).getD 1 0 = x2) ∧
        (([x1, x2, x3, x4] ++ ct).getD 2 0 = x3) ∧
        (([x1, x2, x3, x4] ++ ct).getD 3 0 = x4) :=
      fun x1 x2 x3 x4 => ⟨rfl, rfl, rfl, rfl⟩
    rw [List.append_assoc]
    rw [show (12 : Nat) = 12 + 0 from rfl, hg 0]
    rw [show (13 : Nat) = 12 + 1 from by norm_num, hg 1]
    rw [show (14 : Nat) = 12 + 2 from by norm_num, hg 2]
    rw [show (15 : Nat) = 12 + 3 from by norm_num, hg 3]
    rw [(egen _ _ _ _).1, (egen _ _ _ _).2.1, (egen _ _ _ _).2.2.1,
      (egen _ _ _ _).2.2.2]
    unfold getUint32BE
    omega
  · have h1 : ((nonce ++ ([ct.length / 2 ^ 24 % 256, ct.length / 2 ^ 16 % 256,
        ct.length / 2 ^ 8 % 256, ct.length % 256] ++ ct)).drop 12).drop 4 = ct := by
      rw [List.drop_left' hn, List.drop_left' (by simp)]
    rw [List.drop_drop] at h1
    rw [List.append_assoc]
    exact h1

/-- Witness for C7 with a 12-byte zero nonce and a 2-byte ciphertext. -/
theorem C7_envelope_framing_witness :
    (([0, 0, 0, 0, 0, 0, 0, 0, 0, 0, 0, 0] : List Nat).length = 12 ∧
     ([7, 9] : List Nat).length < 2 ^ 32) ∧
    (∃ payload,
      frame_payload [0, 0, 0, 0, 0, 0, 0, 0, 0, 0, 0, 0] [7, 9] = some payload ∧
      payload.length = 16 + ([7, 9] : List Nat).length ∧
      payload.take 12 = [0, 0, 0, 0, 0, 0, 0, 0, 0, 0, 0, 0] ∧
      getUint32BE (payload.getD 12 0) (payload.getD 13 0)
        (payload.getD 14 0) (payload.getD 15 0) = ([7, 9] : List Nat).length ∧
      payload.drop 16 = [7, 9]) :=
  ⟨⟨by decide, by decide⟩,
   C7_envelope_framing [0, 0, 0, 0, 0, 0, 0, 0, 0, 0, 0, 0] [7, 9]
     (by decide) (by decide)⟩

/-- C3 counterexample. The claim says the read path validates that the
embedded 4-byte big-endian length field equals the declared total length
minus 16 and fails on mismatch.  On this concrete 20-byte payload the
embedded field is 2 while the declared length minus 16 is 4, yet
`unframe_payload` succeeds and silently truncates the ciphertext to 2
bytes. -/
theorem C3_counterexample :
    unframe_payload
      [0, 0, 0, 0, 0, 0, 0, 0, 0, 0, 0, 0, 0, 0, 0, 2, 9, 9, 9, 9] =
      some ([0, 0, 0, 0, 0, 0, 0, 0, 0, 0, 0, 0], 2, [9, 9]) ∧
    getUint32BE 0 0 0 2 ≠
      ([0, 0, 0, 0, 0, 0, 0, 0, 0, 0, 0, 0, 0, 0, 0, 2, 9, 9, 9, 9] :
        List Nat).length - 16 := by
  constructor
  · rfl
  · decide

/-- C3 amended: the read path performs no validation of the embedded
length field.  For any payload of at least 16 bytes,
`extractAndDecryptPng`'s parsing succeeds unconditionally, returning the
first 12 bytes as nonce, the big-endian field as `ctLen`, and
`payload.slice(16, 16 + ctLen)` as ciphertext — clamped to the payload
end, so a mismatching field silently truncates and surfaces only as a
downstream AEAD decryption failure. -/
theorem C3_no_length_validation (payload : List Nat)
    (h : 16 ≤ payload.length) :
    ∃ nonce n ct, unframe_payload payload = some (nonce, n, ct) ∧
      nonce = payload.take 12 ∧
      n = getUint32BE (payload.getD 12 0) (payload.getD 13 0)
        (payload.getD 14 0) (payload.getD 15 0) ∧
      ct = (payload.drop 16).take n ∧
      ct.length = min n (payload.length - 16) := by
  refine ⟨payload.take 12,
    getUint32BE (payload.getD 12 0) (payload.getD 13 0)
      (payload.getD 14 0) (payload.getD 15 0),
    (payload.drop 16).take
      (getUint32BE (payload.getD 12 0) (payload.getD 13 0)
        (payload.getD 14 0) (payload.getD 15 0)),
    ?_, rfl, rfl, rfl, ?_⟩
  · unfold unframe_payload
    rw [if_neg (by omega)]
  · simp

/-- Witness for the amended C3 at a 17-byte payload whose length field
(33) exceeds the available ciphertext, showing the clamping. -/
theorem C3_no_length_validation_witness :
    16 ≤ ([1, 2, 3, 4, 5, 6, 7, 8, 9, 10, 11, 12, 0, 0, 0, 33, 77] :
      List Nat).length ∧
    (∃ nonce n ct,
      unframe_payload [1, 2, 3, 4, 5, 6, 7, 8, 9, 10, 11, 12, 0, 0, 0, 33, 77] =
        some (nonce, n, ct) ∧
      nonce = ([1, 2, 3, 4, 5, 6, 7, 8, 9, 10, 11, 12, 0, 0, 0, 33, 77] :
        List Nat).take 12 ∧
      n = getUint32BE
        (([1, 2, 3, 4, 5, 6, 7, 8, 9, 10, 11, 12, 0, 0, 0, 33, 77] :
          List Nat).getD 12 0)
        (([1, 2, 3, 4, 5, 6, 7, 8, 9, 10, 11, 12, 0, 0, 0, 33, 77] :
          List Nat).getD 13 0)
        (([1, 2, 3, 4, 5, 6, 7, 8, 9, 10, 11, 12, 0, 0, 0, 33, 77] :
          List Nat).getD 14 0)
        (([1, 2, 3, 4, 5, 6, 7, 8, 9, 10, 11, 12, 0, 0, 0, 33, 77] :
          List Nat).getD 15 0) ∧
      ct = (([1, 2, 3, 4, 5, 6, 7, 8, 9, 10, 11, 12, 0, 0, 0, 33, 77] :
        List Nat).drop 16).take n ∧
      ct.length = min n
        (([1, 2, 3, 4, 5, 6, 7, 8, 9, 10, 11, 12, 0, 0, 0, 33, 77] :
          List Nat).length - 16)) :=
  ⟨by decide,
   C3_no_length_validation
     [1, 2, 3, 4, 5, 6, 7, 8, 9, 10, 11, 12, 0, 0, 0, 33, 77] (by decide)⟩

/-! ## AEAD key-length gate -/

/-- Modelled from the spec: the AEAD engine's key-length gate.  The actual
check happens inside the external `cryptography` library's `AESGCM`
constructor invoked by `aes_gcm_encrypt` (`src/encoder.py` line 34), which
is not part of this repository's sources.  Spec section 4.1 and the
docstring of `aes_gcm_encrypt` fix the contract: a 16-byte key selects the
128-bit variant, a 32-byte key the 256-bit variant, and any other length
is a configuration error rejected before the key is used.  Returns the
selected variant's bit length, or `none` for the configuration error. -/
def aesgcm_key_check (key : List Nat) : Option Nat :=
  if key.length = 16 then some 128
  else if key.length = 32 then some 256
  else none

/-- C8. Key-length gating: the AEAD engine accepts a 16-byte key (128-bit
variant) and a 32-byte key (256-bit variant); every other length is
rejected before use. -/
theorem C8_key_length_gate (key : List Nat) :
    (aesgcm_key_check key = some 128 ↔ key.length = 16) ∧
    (aesgcm_key_check key = some 256 ↔ key.length = 32) ∧
    (aesgcm_key_check key = none ↔ key.length ≠ 16 ∧ key.length ≠ 32) := by
  unfold aesgcm_key_check
  by_cases h16 : key.length = 16
  · simp [h16]
  · by_cases h32 : key.length = 32
    · simp [h16, h32]
    · simp [h16, h32]

/-! ## Mapping registry parser -/

/-- Python `str.strip()` on ASCII input: drop leading and trailing
whitespace characters. -/
def pyStrip (s : String) : String :=
  String.mk
    (((s.toList.dropWhile Char.isWhitespace).reverse.dropWhile
      Char.isWhitespace).reverse)

/-- Splitting a character list at every tab, keeping empty fields, as
Python `str.split("\t")` does. -/
def splitOnTabAux : List Char → List Char → List (List Char)
  | [], acc => [acc.reverse]
  | c :: cs, acc =>
    if c = '\t' then acc.reverse :: splitOnTabAux cs []
    else splitOnTabAux cs (c :: acc)

/-- Python `str.split("\t")`. -/
def pySplitTab (s : String) : List String :=
  (splitOnTabAux s.toList []).map String.mk

/-- Digit run of Python `int()` after the first digit: decimal digits with
single underscores allowed only between two digits. -/
def pyIntDigitsGo (acc : Nat) : List Char → Option Nat
  | [] => some acc
  | '_' :: c :: cs =>
    if c.isDigit then pyIntDigitsGo (acc * 10 + (c.toNat - 48)) cs else none
  | ['_'] => none
  | c :: cs =>
    if c.isDigit then pyIntDigitsGo (acc * 10 + (c.toNat - 48)) cs else none

/-- Nonempty decimal digit run, starting with a digit. -/
def pyIntDigits : List Char → Option Nat
  | [] => none
  | c :: cs =>
    if c.isDigit then pyIntDigitsGo (c.toNat - 48) cs else none

/-- Python `int(s)` on ASCII input: surrounding whitespace stripped, an
optional sign, then a nonempty digit run; anything else raises
`ValueError`, modelled as `none`. -/
def pyInt? (s : String) : Option Int :=
  match (pyStrip s).toList with
  | '+' :: rest => (pyIntDigits rest).map (fun n => (n : Int))
  | '-' :: rest => (pyIntDigits rest).map (fun n => -(n : Int))
  | rest => (pyIntDigits rest).map (fun n => (n : Int))

/-- Index of the last dot in a character list. -/
def lastDotPos : List Char → Option Nat
  | [] => none
  | c :: cs =>
    match lastDotPos cs with
    | some i => some (i + 1)
    | none => if c = '.' then some 0 else none

/-- Root part of `os.path.splitext` for names without directory
separators: split at the last dot unless every character before it is a
dot (so dotfile-style names keep their dot). -/
def splitextRoot (s : String) : String :=
  match lastDotPos s.toList with
  | none => s
  | some i =>
    if (s.toList.take i).all (fun c => c = '.') then s
    else String.mk (s.toList.take i)

/-- One record of the mapping registry, as built by
`read_article_mapping` (`app.py` lines 86-94). -/
structure MappingEntry where
  id : String
  img_path : String
  aes_key_b64 : String
  payload_len : Int
deriving DecidableEq, Repr

/-- One iteration of the loop of `read_article_mapping` (`app.py` lines
79-94): strip the line, skip it when blank, split on tabs, skip it when
the field count is not 4, then `int(payload_len)` may raise (modelled as
`Except.error` carrying the offending field); otherwise the entry is
keyed by the article name without its extension. -/
def processMappingLine (line : String) :
    Except String (Option (String × MappingEntry)) :=
  let l := pyStrip line
  if l = "" then .ok none
  else
    match pySplitTab l with
    | [article_id, img_path, aes_key_b64, payload_len] =>
      match pyInt? payload_len with
      | some n =>
        .ok (some (splitextRoot article_id,
          ⟨splitextRoot article_id, img_path, aes_key_b64, n⟩))
      | none => .error payload_len
    | _ => .ok none

/-- The loop of `read_article_mapping` over the lines after the header;
the result lists the dict insertions in order. -/
def readMappingLines :
    List String → Except String (List (String × MappingEntry))
  | [] => .ok []
  | line :: rest =>
    match processMappingLine line with
    | .error e => .error e
    | .ok none => readMappingLines rest
    | .ok (some kv) => (readMappingLines rest).map (fun m => kv :: m)

/-- `read_article_mapping` (`app.py` lines 59-95) applied to the file's
lines: raises on an empty file, skips the header line, then folds the
remaining lines. -/
def read_article_mapping (lines : List String) :
    Except String (List (String × MappingEntry)) :=
  match lines with
  | [] => .error "Mapping file is empty"
  | _ :: rest => readMappingLines rest

/-- The entry one line contributes when it does not raise: `none` for
blank or non-4-field lines, the keyed record for well-formed lines. -/
def mappingLineEntry? (line : String) : Option (String × MappingEntry) :=
  let l := pyStrip line
  if l = "" then none
  else
    match pySplitTab l with
    | [article_id, img_path, aes_key_b64, payload_len] =>
      match pyInt? payload_len with
      | some n =>
        some (splitextRoot article_id,
          ⟨splitextRoot article_id, img_path, aes_key_b64, n⟩)
      | none => none
    | _ => none

/-- A line that cannot raise: whenever it has exactly four tab-separated
fields, the fourth parses as an integer. -/
def mappingLineSafe (line : String) : Bool :=
  match pySplitTab (pyStrip line) with
  | [_, _, _, d] => (pyInt? d).isSome
  | _ => true

theorem processMappingLine_safe (l : String) (h : mappingLineSafe l = true) :
    processMappingLine l = .ok (mappingLineEntry? l) := by
  unfold processMappingLine mappingLineEntry?
  by_cases hb : pyStrip l = ""
  · simp [hb]
  · simp only [if_neg hb]
    unfold mappingLineSafe at h
    rcases hsplit : pySplitTab (pyStrip l) with
      _ | ⟨a, _ | ⟨b, _ | ⟨c, _ | ⟨d, _ | ⟨e, rest⟩⟩⟩⟩⟩ <;>
      simp only [hsplit] at h ⊢
    cases hint : pyInt? d with
    | none => rw [hint] at h; simp at h
    | some n => simp [hint]

theorem readMappingLines_safe (rest : List String)
    (hsafe : ∀ l ∈ rest, mappingLineSafe l = true) :
    readMappingLines rest = .ok (rest.filterMap mappingLineEntry?) := by
  induction rest with
  | nil => rfl
  | cons l rest ih =>
    have hl := processMappingLine_safe l (hsafe l (by simp))
    have ih' := ih (fun x hx => hsafe x (by simp [hx]))
    cases he : mappingLineEntry? l with
    | none =>
      simp only [readMappingLines, hl, he, ih', List.filterMap_cons]
    | some kv =>
      simp only [readMappingLines, hl, he, ih', List.filterMap_cons,
        Except.map]

theorem splitTab_ne_blank (l : String) (a b c d : String)
    (hsplit : pySplitTab (pyStrip l) = [a, b, c, d]) : pyStrip l ≠ "" := by
  intro hb
  rw [hb] at hsplit
  rw [show pySplitTab "" = [""] from rfl] at hsplit
  simp at hsplit

theorem mappingLineEntry_of_fields (l : String) (a b c d : String) (n : Int)
    (hsplit : pySplitTab (pyStrip l) = [a, b, c, d])
    (hint : pyInt? d = some n) :
    mappingLineEntry? l =
      some (splitextRoot a, MappingEntry.mk (splitextRoot a) b c n) := by
  unfold mappingLineEntry?
  simp only [if_neg (splitTab_ne_blank l a b c d hsplit), hsplit, hint]

/-- C9. Mapping-registry tolerance: `read_article_mapping` skips the
header line; blank lines and lines whose tab-separated field count is
not 4 are skipped without raising; and every well-formed 4-field line
contributes an entry keyed by the article name without its extension. -/
theorem C9_registry_tolerance (header : String) (rest : List String)
    (hsafe : ∀ l ∈ rest, mappingLineSafe l = true) :
    read_article_mapping (header :: rest) =
      .ok (rest.filterMap mappingLineEntry?) ∧
    ∀ l ∈ rest, ∀ a b c d, pySplitTab (pyStrip l) = [a, b, c, d] →
      ∀ n, pyInt? d = some n →
        (splitextRoot a, MappingEntry.mk (splitextRoot a) b c n) ∈
          rest.filterMap mappingLineEntry? := by
  constructor
  · exact readMappingLines_safe rest hsafe
  · intro l hl a b c d hsplit n hint
    rw [List.mem_filterMap]
    exact ⟨l, hl, mappingLineEntry_of_fields l a b c d n hsplit hint⟩

/-- Witness for C9: a header, one well-formed line, one malformed line,
one blank line, and another well-formed line with a negative length. -/
theorem C9_registry_tolerance_witness :
    (∀ l ∈ ["art.txt\tIMG\tKEY\t42", "too\tfew", "   ", "x.png\tP\tK\t-7"],
      mappingLineSafe l = true) ∧
    (read_article_mapping
      ("HDR" :: ["art.txt\tIMG\tKEY\t42", "too\tfew", "   ", "x.png\tP\tK\t-7"]) =
      .ok (["art.txt\tIMG\tKEY\t42", "too\tfew", "   ",
        "x.png\tP\tK\t-7"].filterMap mappingLineEntry?) ∧
    ∀ l ∈ ["art.txt\tIMG\tKEY\t42", "too\tfew", "   ", "x.png\tP\tK\t-7"],
      ∀ a b c d, pySplitTab (pyStrip l) = [a, b, c, d] →
      ∀ n, pyInt? d = some n →
        (splitextRoot a, MappingEntry.mk (splitextRoot a) b c n) ∈
          ["art.txt\tIMG\tKEY\t42", "too\tfew", "   ",
            "x.png\tP\tK\t-7"].filterMap mappingLineEntry?) :=
  ⟨by decide,
   C9_registry_tolerance "HDR"
     ["art.txt\tIMG\tKEY\t42", "too\tfew", "   ", "x.png\tP\tK\t-7"]
     (by decide)⟩

/-- C10. Implicit claim: a line with exactly four tab-separated fields
whose fourth field is not a decimal integer makes `read_article_mapping`
raise (the `int` conversion fails), so no mapping at all is returned —
the line is not skipped, and one malformed length field aborts the whole
registry read. -/
theorem C10_malformed_length_aborts (header l : String)
    (pre post : List String)
    (hpre : ∀ x ∈ pre, mappingLineSafe x = true)
    (a b c d : String) (hsplit : pySplitTab (pyStrip l) = [a, b, c, d])
    (hbad : pyInt? d = none) :
    read_article_mapping (header :: (pre ++ l :: post)) = .error d := by
  unfold read_article_mapping
  have hfail : readMappingLines (l :: post) = .error d := by
    have hne := splitTab_ne_blank l a b c d hsplit
    simp only [readMappingLines, processMappingLine, if_neg hne, hsplit, hbad]
  induction pre with
  | nil => simpa using hfail
  | cons x pre ih =>
    have hx := processMappingLine_safe x (hpre x (by simp))
    have ih' := ih (fun y hy => hpre y (by simp [hy]))
    cases he : mappingLineEntry? x with
    | none =>
      simp only [List.cons_append, readMappingLines, hx, he]
      simpa using ih'
    | some kv =>
      simp only [List.cons_append, readMappingLines, hx, he]
      have ih2 : readMappingLines (pre ++ l :: post) = Except.error d := ih'
      simp only [List.append_eq, ih2]
      rfl

/-- Witness for C10: one good line before, one line whose fourth field is
not numeric, one line after. -/
theorem C10_malformed_length_aborts_witness :
    (∀ x ∈ ["good.txt\ti\tk\t5"], mappingLineSafe x = true) ∧
    pySplitTab (pyStrip "bad.txt\ti\tk\tnope") =
      ["bad.txt", "i", "k", "nope"] ∧
    pyInt? "nope" = none ∧
    read_article_mapping
      ("HDR" :: (["good.txt\ti\tk\t5"] ++
        "bad.txt\ti\tk\tnope" :: ["after.txt\ti\tk\t9"])) = .error "nope" :=
  ⟨by decide, by decide, by decide,
   C10_malformed_length_aborts "HDR" "bad.txt\ti\tk\tnope"
     ["good.txt\ti\tk\t5"] ["after.txt\ti\tk\t9"] (by decide)
     "bad.txt" "i" "k" "nope" (by decide) (by decide)⟩
